import Mathlib

/-!
# Verification of the Live Play Predictor parimutuel core and its front-end helpers

This development embeds, in Lean 4:

* the parimutuel betting ledger / market / settlement engine that the
  repository's client stub (`lib/linera/client.ts`), contract types
  (`lib/linera/types.ts`) and design document describe — the on-chain
  contract itself is not part of this source tree, so those definitions are
  modelled from the specification's words (each carries a
  `Modelled from the spec:` doc comment);
* the CheCko wallet-bridge balance function (`lib/checko.ts`,
  `getCheCkoBalance`) and the wallet-context state update
  (`contexts/WalletContext.tsx`, `updateWalletState`), with string amounts
  represented by their numeric (rational) denotation;
* the betting-slip submission handler
  (`components/betting/BettingSlip.tsx`, `handlePlaceBets`);
* the TTL cache of the esports-data proxy
  (`supabase/functions/esports-data/index.ts`).

Theorems about these definitions settle the frozen claims C1–C10.
-/

namespace Parimutuel

/-- Modelled from the spec: market lifecycle states
(`Open → Locked → Resolved | Cancelled`), matching the `MarketStatus` enum
in `lib/linera/types.ts`. -/
inductive MarketStatus where
  | Open
  | Locked
  | Resolved
  | Cancelled
deriving DecidableEq, Repr

/-- Modelled from the spec: one selectable outcome within a market, with its
accumulated stake pool (`MarketOption` in `lib/linera/types.ts`; amounts as
naturals). -/
structure MarketOption where
  label : String
  pool : Nat
deriving DecidableEq, Repr

/-- Modelled from the spec: a betting market (`LineraMarket` in
`lib/linera/types.ts`): ordered options, status, creation and lock
timestamps (milliseconds), and the winning option index once resolved. -/
structure Market where
  id : Nat
  matchId : String
  title : String
  options : List MarketOption
  status : MarketStatus
  createdAt : Nat
  locksAt : Nat
  winningOption : Option Nat
deriving DecidableEq, Repr

/-- Modelled from the spec: a recorded wager (`LineraBet` in
`lib/linera/types.ts`): stake, the odds multiplier locked at placement
(fixed-point, scaled by 1000), the settled flag and the optional payout. -/
structure Bet where
  id : Nat
  owner : Nat
  marketId : Nat
  optionId : Nat
  amount : Nat
  odds : Nat
  placedAt : Nat
  settled : Bool
  payout : Option Nat
deriving DecidableEq, Repr

/-- Modelled from the spec: a per-owner ledger account with spendable
(`available`) and bet-reserved (`locked`) balances. -/
structure LedgerAccount where
  available : Nat
  locked : Nat
deriving DecidableEq, Repr

/-- Modelled from the spec: the persisted state — markets and ledger
accounts as keyed maps, the bet registry, and the next fresh bet id. -/
structure State where
  markets : Nat → Option Market
  bets : List Bet
  ledger : Nat → LedgerAccount
  nextBetId : Nat

/-- Modelled from the spec: the caller-facing error taxonomy (§7). -/
inductive OpError where
  | InvalidAmount
  | InsufficientFunds
  | InvalidOptions
  | InvalidDeadline
  | InvalidState
  | InvalidOption
  | MarketClosed
  | Unauthorized
  | NotFound
deriving DecidableEq, Repr

/-- The fixed-point odds scale: odds are integers scaled by 1000
(`odds: number; // Scaled by 1000` in `lib/linera/types.ts`). -/
def scale : Nat := 1000

/-- Modelled from the spec: the Odds Engine (§4.3). Given the current
option pools and a prospective `(optionId, amount)`,
`totalPool = sum(pool_i) + amount` and
`odds = totalPool / (pool_optionId + amount)` in fixed-point ×1000 integer
arithmetic. -/
def quoteOdds (pools : List Nat) (optionId : Nat) (amount : Nat) : Nat :=
  (pools.sum + amount) * scale / (pools.getD optionId 0 + amount)

/-- The option pools of a market, in option-index order. -/
def poolsOf (m : Market) : List Nat :=
  m.options.map (fun o => o.pool)

/-- Point-update of the keyed ledger map. -/
def updateLedger (led : Nat → LedgerAccount) (o : Nat)
    (f : LedgerAccount → LedgerAccount) : Nat → LedgerAccount :=
  fun o' => if o' = o then f (led o') else led o'

/-- Modelled from the spec: `reserve` (§4.1) moves `amount` from
`available` to `locked`; callers validate `available ≥ amount` first. -/
def reserve (led : Nat → LedgerAccount) (o : Nat) (amount : Nat) :
    Nat → LedgerAccount :=
  updateLedger led o (fun a => ⟨a.available - amount, a.locked + amount⟩)

/-- Modelled from the spec: `release` (§4.1) moves `amount` out of `locked`
and separately adds `credit` to `available`; used only by settlement. -/
def release (led : Nat → LedgerAccount) (o : Nat) (amount credit : Nat) :
    Nat → LedgerAccount :=
  updateLedger led o (fun a => ⟨a.available + credit, a.locked - amount⟩)

/-- Increment the pool of option `i` by `amount`. -/
def bumpPool : List MarketOption → Nat → Nat → List MarketOption
  | [], _, _ => []
  | o :: rest, 0, amount => { o with pool := o.pool + amount } :: rest
  | o :: rest, i + 1, amount => o :: bumpPool rest i amount

/-- Modelled from the spec: a market is *effectively Open* (§4.2 lazy-lock
policy) when its status is `Open` **and** its `locksAt` deadline has not
been reached. -/
def effectivelyOpen (now : Nat) (m : Market) : Prop :=
  m.status = MarketStatus.Open ∧ now < m.locksAt

instance (now : Nat) (m : Market) : Decidable (effectivelyOpen now m) := by
  unfold effectivelyOpen
  infer_instance

/-- Modelled from the spec: `placeBet` (§4.4). Preconditions are validated
in order — market exists, effectively Open (lazy lock), valid option index,
positive amount, sufficient available balance — before any state is
mutated; on success the stake is reserved, the option pool is incremented,
and a bet is recorded with the odds quoted now. Returns `(betId, odds)`. -/
def placeBet (now : Nat) (owner marketId optionId : Nat) (amount : Int)
    (s : State) : Except OpError (State × Nat × Nat) :=
  match s.markets marketId with
  | none => .error .NotFound
  | some mkt =>
    if effectivelyOpen now mkt then
      if optionId < mkt.options.length then
        if 0 < amount then
          let a := amount.toNat
          if (s.ledger owner).available < a then .error .InsufficientFunds
          else
            let odds := quoteOdds (poolsOf mkt) optionId a
            let bet : Bet :=
              ⟨s.nextBetId, owner, marketId, optionId, a, odds, now, false, none⟩
            let mkt' := { mkt with options := bumpPool mkt.options optionId a }
            .ok ({ markets := fun k => if k = marketId then some mkt' else s.markets k,
                   bets := s.bets ++ [bet],
                   ledger := reserve s.ledger owner a,
                   nextBetId := s.nextBetId + 1 },
                 s.nextBetId, odds)
        else .error .InvalidAmount
      else .error .InvalidOption
    else .error .MarketClosed

/-- The state after a `placeBet` call: the new state on success, the old
state untouched on failure (all-or-nothing, §4.4/§7). -/
def applyPlaceBet (now : Nat) (owner marketId optionId : Nat) (amount : Int)
    (s : State) : State :=
  match placeBet now owner marketId optionId amount s with
  | .ok (s', _, _) => s'
  | .error _ => s

/-- Credit `a` to the available balance of owner `o`. -/
def creditAvailable (led : Nat → LedgerAccount) (o a : Nat) :
    Nat → LedgerAccount :=
  updateLedger led o (fun acc => { acc with available := acc.available + a })

/-- Modelled from the spec: `deposit(owner, amount>0) -> newAvailable`
(§4.1) credits `available`; fails `InvalidAmount` if `amount ≤ 0`. -/
def deposit (owner : Nat) (amount : Int) (s : State) :
    Except OpError (State × Nat) :=
  if amount ≤ 0 then .error .InvalidAmount
  else
    let a := amount.toNat
    .ok ({ s with ledger := creditAvailable s.ledger owner a },
         (s.ledger owner).available + a)

/-- The state after a `deposit` call: unchanged on failure. -/
def applyDeposit (owner : Nat) (amount : Int) (s : State) : State :=
  match deposit owner amount s with
  | .ok (s', _) => s'
  | .error _ => s

/-- Modelled from the spec: the two settlement modes of §4.5 — a market
resolved with a winning option, or a cancelled market (full refund). -/
inductive SettleMode where
  | resolvedWith (winningOption : Nat)
  | cancelledRefund
deriving DecidableEq, Repr

/-- Modelled from the spec: the amount credited to a bet's owner at
settlement (§4.5). Winner: `grossPayout = amount * odds / scale`,
`fee = (grossPayout - amount) * feeRate / scale` (fee only on net
winnings), `netPayout = grossPayout - fee`. Loser: 0. Cancelled: the full
stake. -/
def betCredit (mode : SettleMode) (feeRate : Nat) (b : Bet) : Nat :=
  match mode with
  | .resolvedWith w =>
    if b.optionId = w then
      let gross := b.amount * b.odds / scale
      gross - (gross - b.amount) * feeRate / scale
    else 0
  | .cancelledRefund => b.amount

/-- Modelled from the spec: the settlement pass body (§4.5) — walk the bet
registry; every bet of this market still `settled = false` is credited via
`release` and marked settled with its payout recorded; all other bets are
untouched. Returns the updated registry and ledger. -/
def settleBets (marketId : Nat) (mode : SettleMode) (feeRate : Nat) :
    List Bet → (Nat → LedgerAccount) → List Bet × (Nat → LedgerAccount)
  | [], led => ([], led)
  | b :: rest, led =>
    if b.marketId = marketId ∧ b.settled = false then
      let credit := betCredit mode feeRate b
      let res := settleBets marketId mode feeRate rest
        (release led b.owner b.amount credit)
      ({ b with settled := true, payout := some credit } :: res.1, res.2)
    else
      let res := settleBets marketId mode feeRate rest led
      (b :: res.1, res.2)

/-- Modelled from the spec: the Settlement Engine pass (§4.5) over a whole
market, updating the bet registry and the ledger. -/
def settlePass (marketId : Nat) (mode : SettleMode) (feeRate : Nat)
    (s : State) : State :=
  let res := settleBets marketId mode feeRate s.bets s.ledger
  { s with bets := res.1, ledger := res.2 }

/-- The bets recorded against one market. -/
def betsOn (marketId : Nat) (bets : List Bet) : List Bet :=
  bets.filter (fun b => b.marketId == marketId)

/-- Sum of recorded payouts over this market's bets on the winning option. -/
def payoutSumWinners (w marketId : Nat) (bets : List Bet) : Nat :=
  (((betsOn marketId bets).filter (fun b => b.optionId == w)).map
    (fun b => b.payout.getD 0)).sum

/-- Sum of stakes over this market's bets on the winning option. -/
def amountSumWinners (w marketId : Nat) (bets : List Bet) : Nat :=
  (((betsOn marketId bets).filter (fun b => b.optionId == w)).map
    (fun b => b.amount)).sum

/-- Sum of stakes over this market's bets on losing options. -/
def amountSumLosers (w marketId : Nat) (bets : List Bet) : Nat :=
  (((betsOn marketId bets).filter (fun b => b.optionId != w)).map
    (fun b => b.amount)).sum

end Parimutuel

namespace Parimutuel

/-- C1: for every pool configuration and prospective bet with a positive
amount, the matched pool `pool_optionId + amount` is positive (the division
by zero the spec guards against is unreachable), the quoted odds equal
`totalPool * scale / (pool_optionId + amount)` with
`totalPool = sum(pool_i) + amount`, and when every pool is zero the quote
is exactly `scale` = 1000 (a 1.0× multiplier for the first bettor). -/
theorem quoteOdds_parimutuel (pools : List Nat) (i a : Nat) (ha : 0 < a) :
    0 < pools.getD i 0 + a ∧
    quoteOdds pools i a = (pools.sum + a) * scale / (pools.getD i 0 + a) ∧
    ((∀ p ∈ pools, p = 0) → quoteOdds pools i a = scale) := by
  refine ⟨Nat.lt_of_lt_of_le ha (Nat.le_add_left a _), rfl, ?_⟩
  intro hz
  have hsum : pools.sum = 0 := List.sum_eq_zero hz
  have hget : pools.getD i 0 = 0 := by
    rcases Nat.lt_or_ge i pools.length with hlt | hge
    · have hmem := hz (pools.get ⟨i, hlt⟩) (List.get_mem pools i hlt)
      simp [List.getD, List.getElem?_eq_getElem hlt, List.get_eq_getElem] at hmem ⊢
      exact hmem
    · simp [List.getD, List.getElem?_eq_none hge]
  simp only [quoteOdds, hsum, hget, Nat.zero_add]
  exact Nat.mul_div_cancel_left scale ha

/-- C1 witness: first bet of 100 on a fresh two-option market quotes odds
1000. -/
theorem quoteOdds_parimutuel_witness :
    0 < [0, 0].getD 0 0 + 100 ∧
    quoteOdds [0, 0] 0 100 = ([0, 0].sum + 100) * scale / ([0, 0].getD 0 0 + 100) ∧
    ((∀ p ∈ [0, 0], p = 0) → quoteOdds [0, 0] 0 100 = scale) :=
  quoteOdds_parimutuel [0, 0] 0 100 (by decide)

/-- Every bet of the settled market comes out of the pass with its
`settled` flag raised. -/
theorem settleBets_marks_settled (marketId : Nat) (mode : SettleMode)
    (feeRate : Nat) :
    ∀ (bs : List Bet) (led : Nat → LedgerAccount) (b : Bet),
      b ∈ (settleBets marketId mode feeRate bs led).1 →
      b.marketId = marketId → b.settled = true := by
  intro bs
  induction bs with
  | nil =>
    intro led b hb
    simp [settleBets] at hb
  | cons hd tl ih =>
    intro led b hb hm
    by_cases hc : hd.marketId = marketId ∧ hd.settled = false
    · simp only [settleBets, if_pos hc] at hb
      rcases List.mem_cons.mp hb with h | h
      · rw [h]
      · exact ih _ b h hm
    · simp only [settleBets, if_neg hc] at hb
      rcases List.mem_cons.mp hb with h | h
      · subst h
        cases hs : b.settled
        · exact absurd ⟨hm, hs⟩ hc
        · rfl
      · exact ih _ b h hm

/-- On a registry whose bets for this market are all already settled, the
settlement pass body is the identity: same bets, same ledger. -/
theorem settleBets_noop (marketId : Nat) (mode : SettleMode) (feeRate : Nat) :
    ∀ (bs : List Bet) (led : Nat → LedgerAccount),
      (∀ b ∈ bs, b.marketId = marketId → b.settled = true) →
      settleBets marketId mode feeRate bs led = (bs, led) := by
  intro bs
  induction bs with
  | nil =>
    intro led _
    simp [settleBets]
  | cons hd tl ih =>
    intro led hall
    have hc : ¬ (hd.marketId = marketId ∧ hd.settled = false) := by
      rintro ⟨h1, h2⟩
      have := hall hd (List.mem_cons_self hd tl) h1
      rw [this] at h2
      exact absurd h2 (by decide)
    have htl : ∀ b ∈ tl, b.marketId = marketId → b.settled = true :=
      fun b hb => hall b (List.mem_cons_of_mem hd hb)
    simp [settleBets, if_neg hc, ih led htl]

/-- C2: the Settlement pass is idempotent — running it a second time over a
market that has already been settled changes nothing: no ledger account's
`available` or `locked` moves, and no bet's `settled` flag or `payout`
changes (the whole state is equal), because every bet of the market already
carries `settled = true` after the first pass. -/
theorem settlePass_idempotent (marketId : Nat) (mode : SettleMode)
    (feeRate : Nat) (s : State) :
    settlePass marketId mode feeRate (settlePass marketId mode feeRate s) =
      settlePass marketId mode feeRate s := by
  have h := settleBets_noop marketId mode feeRate
    (settleBets marketId mode feeRate s.bets s.ledger).1
    (settleBets marketId mode feeRate s.bets s.ledger).2
    (fun b hb hm => settleBets_marks_settled marketId mode feeRate _ _ b hb hm)
  simp only [settlePass]
  rw [h]

/-- If `placeBet` fails, the state is untouched. -/
theorem applyPlaceBet_of_error (now owner marketId optionId : Nat)
    (amount : Int) (s : State) (e : OpError)
    (h : placeBet now owner marketId optionId amount s = .error e) :
    applyPlaceBet now owner marketId optionId amount s = s := by
  simp [applyPlaceBet, h]

/-- The error `placeBet` reports for each violated precondition, checked in
the spec's validation order (§4.4), for a market present in the store. -/
theorem placeBet_err_cases (now owner marketId optionId : Nat)
    (amount : Int) (s : State) (mkt : Market)
    (hm : s.markets marketId = some mkt) :
    (¬ effectivelyOpen now mkt →
      placeBet now owner marketId optionId amount s = .error .MarketClosed) ∧
    (effectivelyOpen now mkt → ¬ optionId < mkt.options.length →
      placeBet now owner marketId optionId amount s = .error .InvalidOption) ∧
    (effectivelyOpen now mkt → optionId < mkt.options.length → amount ≤ 0 →
      placeBet now owner marketId optionId amount s = .error .InvalidAmount) ∧
    (effectivelyOpen now mkt → optionId < mkt.options.length → 0 < amount →
      (s.ledger owner).available < amount.toNat →
      placeBet now owner marketId optionId amount s = .error .InsufficientFunds) := by
  refine ⟨fun h1 => ?_, fun h1 h2 => ?_, fun h1 h2 h3 => ?_, fun h1 h2 h3 h4 => ?_⟩
  · simp [placeBet, hm, if_neg h1]
  · simp [placeBet, hm, if_pos h1, if_neg h2]
  · simp [placeBet, hm, if_pos h1, if_pos h2, if_neg (Int.not_lt.mpr h3)]
  · have h4' : ((s.ledger owner).available : Int) < amount := by omega
    simp [placeBet, hm, if_pos h1, if_pos h2, if_pos h3, h4']

/-- C5: `placeBet` is all-or-nothing. For a market in the store, if any
precondition is violated — the market not effectively Open, an out-of-range
option, a non-positive amount, or a stake exceeding the owner's available
balance — the call fails with `MarketClosed`, `InvalidOption`,
`InvalidAmount` or `InsufficientFunds`, and the state (pools, ledger, bet
registry) is exactly the one before the call; in particular a stake above
the available balance, with all other preconditions met, fails
`InsufficientFunds`. -/
theorem placeBet_allOrNothing (now owner marketId optionId : Nat)
    (amount : Int) (s : State) (mkt : Market)
    (hm : s.markets marketId = some mkt)
    (hviol : ¬ effectivelyOpen now mkt ∨ ¬ optionId < mkt.options.length ∨
      amount ≤ 0 ∨ (s.ledger owner).available < amount.toNat) :
    (∃ e, placeBet now owner marketId optionId amount s = .error e ∧
      (e = OpError.MarketClosed ∨ e = OpError.InvalidOption ∨
       e = OpError.InvalidAmount ∨ e = OpError.InsufficientFunds)) ∧
    applyPlaceBet now owner marketId optionId amount s = s ∧
    (effectivelyOpen now mkt → optionId < mkt.options.length → 0 < amount →
      (s.ledger owner).available < amount.toNat →
      placeBet now owner marketId optionId amount s = .error .InsufficientFunds) := by
  obtain ⟨hA, hB, hC, hD⟩ :=
    placeBet_err_cases now owner marketId optionId amount s mkt hm
  have herr : ∃ e, placeBet now owner marketId optionId amount s = .error e ∧
      (e = OpError.MarketClosed ∨ e = OpError.InvalidOption ∨
       e = OpError.InvalidAmount ∨ e = OpError.InsufficientFunds) := by
    by_cases h1 : effectivelyOpen now mkt
    · by_cases h2 : optionId < mkt.options.length
      · by_cases h3 : 0 < amount
        · have h4 : (s.ledger owner).available < amount.toNat := by
            rcases hviol with h | h | h | h
            · exact absurd h1 h
            · exact absurd h2 h
            · exact absurd h3 (Int.not_lt.mpr h)
            · exact h
          exact ⟨_, hD h1 h2 h3 h4, by simp⟩
        · exact ⟨_, hC h1 h2 (Int.not_lt.mp h3), by simp⟩
      · exact ⟨_, hB h1 h2, by simp⟩
    · exact ⟨_, hA h1, by simp⟩
  obtain ⟨e, he, hcases⟩ := herr
  exact ⟨⟨e, he, hcases⟩,
    applyPlaceBet_of_error now owner marketId optionId amount s e he, hD⟩

/-- C6: lazy lock. Any bet attempt against a market whose `locksAt`
deadline is strictly in the past fails `MarketClosed` and leaves the state
untouched — whatever the recorded status field says, `Open` included. -/
theorem placeBet_lazyLock (now owner marketId optionId : Nat) (amount : Int)
    (s : State) (mkt : Market)
    (hm : s.markets marketId = some mkt)
    (hpast : mkt.locksAt < now) :
    placeBet now owner marketId optionId amount s = .error .MarketClosed ∧
    applyPlaceBet now owner marketId optionId amount s = s := by
  have hnotopen : ¬ effectivelyOpen now mkt := by
    rintro ⟨_, hlt⟩
    exact absurd (Nat.lt_trans hpast hlt) (Nat.lt_irrefl mkt.locksAt)
  have he := (placeBet_err_cases now owner marketId optionId amount s mkt hm).1
    hnotopen
  exact ⟨he, applyPlaceBet_of_error now owner marketId optionId amount s _ he⟩

/-- C4: placing a further bet never rewrites an earlier bet's record. A
successful `placeBet` only appends the newly created bet to the registry:
every previously recorded bet — its `odds` field included — is still
present, bit for bit. -/
theorem placeBet_locks_in_odds (now owner marketId optionId : Nat)
    (amount : Int) (s s' : State) (betId odds : Nat)
    (h : placeBet now owner marketId optionId amount s = .ok (s', betId, odds)) :
    ∃ newBet, s'.bets = s.bets ++ [newBet] ∧ ∀ b ∈ s.bets, b ∈ s'.bets := by
  unfold placeBet at h
  split at h
  · exact absurd h (by simp)
  · split at h
    · split at h
      · split at h
        · dsimp only at h
          split at h
          · exact absurd h (by simp)
          · simp only [Except.ok.injEq, Prod.mk.injEq] at h
            obtain ⟨hs, -, -⟩ := h
            subst hs
            exact ⟨_, rfl, fun b hb => List.mem_append_left _ hb⟩
        · exact absurd h (by simp)
      · exact absurd h (by simp)
    · exact absurd h (by simp)

/-- C7: `deposit` rejects non-positive amounts with `InvalidAmount` and
credits nothing; a positive amount is credited to the owner's `available`
balance (locked untouched, every other account and the rest of the state
untouched) and the new available balance is returned. -/
theorem deposit_contract (owner : Nat) (amount : Int) (s : State) :
    (amount ≤ 0 →
      deposit owner amount s = .error .InvalidAmount ∧
      applyDeposit owner amount s = s) ∧
    (0 < amount → ∃ s',
      deposit owner amount s = .ok (s', (s.ledger owner).available + amount.toNat) ∧
      (s'.ledger owner).available = (s.ledger owner).available + amount.toNat ∧
      (s'.ledger owner).locked = (s.ledger owner).locked ∧
      (∀ o', o' ≠ owner → s'.ledger o' = s.ledger o') ∧
      s'.markets = s.markets ∧ s'.bets = s.bets) := by
  constructor
  · intro h
    constructor
    · simp [deposit, if_pos h]
    · simp [applyDeposit, deposit, if_pos h]
  · intro h
    have hn : ¬ amount ≤ 0 := Int.not_le.mpr h
    refine ⟨{ s with ledger := creditAvailable s.ledger owner amount.toNat },
      ?_, ?_, ?_, ?_, rfl, rfl⟩
    · simp [deposit, if_neg hn]
    · simp [creditAvailable, updateLedger]
    · simp [creditAvailable, updateLedger]
    · intro o' ho'
      simp [creditAvailable, updateLedger, ho']

/-- A fresh two-option market (both pools zero), locking at time 100, used
by the concrete scenarios below. -/
def exMarket : Market :=
  ⟨0, "match-7", "Round winner", [⟨"A", 0⟩, ⟨"B", 0⟩], MarketStatus.Open, 0, 100, none⟩

/-- Scenario start state: the market above in the store, every owner
holding 1000 available / 0 locked, empty bet registry. -/
def exState : State :=
  ⟨fun k => if k = 0 then some exMarket else none, [], fun _ => ⟨1000, 0⟩, 0⟩

/-- C4 witness: a concrete successful bet of 100 on option 0 appends one
bet and keeps every earlier bet record intact. -/
theorem placeBet_locks_in_odds_witness :
    ∃ newBet, (applyPlaceBet 10 1 0 0 100 exState).bets = exState.bets ++ [newBet] ∧
      ∀ b ∈ exState.bets, b ∈ (applyPlaceBet 10 1 0 0 100 exState).bets :=
  placeBet_locks_in_odds 10 1 0 0 100 exState
    (applyPlaceBet 10 1 0 0 100 exState) 0 1000 rfl

/-- C5 witness: a stake of 5000 against an available balance of 1000 fails
(`InsufficientFunds`) and leaves the state untouched. -/
theorem placeBet_allOrNothing_witness :
    (∃ e, placeBet 10 1 0 0 5000 exState = .error e ∧
      (e = OpError.MarketClosed ∨ e = OpError.InvalidOption ∨
       e = OpError.InvalidAmount ∨ e = OpError.InsufficientFunds)) ∧
    applyPlaceBet 10 1 0 0 5000 exState = exState ∧
    (effectivelyOpen 10 exMarket → 0 < exMarket.options.length →
      0 < (5000 : Int) → (exState.ledger 1).available < (5000 : Int).toNat →
      placeBet 10 1 0 0 5000 exState = .error .InsufficientFunds) :=
  placeBet_allOrNothing 10 1 0 0 5000 exState exMarket rfl
    (Or.inr (Or.inr (Or.inr (by decide))))

/-- C6 witness: at time 200 the market's `locksAt = 100` has passed while
its status field still reads `Open`; the bet attempt fails `MarketClosed`
and mutates nothing. -/
theorem placeBet_lazyLock_witness :
    placeBet 200 1 0 0 100 exState = .error .MarketClosed ∧
    applyPlaceBet 200 1 0 0 100 exState = exState :=
  placeBet_lazyLock 200 1 0 0 100 exState exMarket rfl (by decide)

/-- C7 witness: depositing −5 fails `InvalidAmount` and credits nothing;
depositing 250 yields available 1000 + 250 and touches nothing else. -/
theorem deposit_contract_witness :
    (deposit 1 (-5) exState = .error .InvalidAmount ∧
      applyDeposit 1 (-5) exState = exState) ∧
    (∃ s', deposit 1 250 exState = .ok (s', (exState.ledger 1).available + (250 : Int).toNat) ∧
      (s'.ledger 1).available = (exState.ledger 1).available + (250 : Int).toNat ∧
      (s'.ledger 1).locked = (exState.ledger 1).locked ∧
      (∀ o', o' ≠ 1 → s'.ledger o' = exState.ledger o') ∧
      s'.markets = exState.markets ∧ s'.bets = exState.bets) :=
  ⟨(deposit_contract 1 (-5) exState).1 (by decide),
   (deposit_contract 1 250 exState).2 (by decide)⟩

/-- The spec's Scenario 1–2 sequence: owner 1 bets 100 on option 0 (quoted
1.0× = 1000), then owner 2 bets 100 on option 1 (quoted 2.0× = 2000). -/
def exTwoBets : State :=
  applyPlaceBet 20 2 0 1 100 (applyPlaceBet 10 1 0 0 100 exState)

/-- The state after resolving that market for option 0 with `feeRate = 0`. -/
def exSettled : State :=
  settlePass 0 (SettleMode.resolvedWith 0) 0 exTwoBets

/-- C3 counterexample: on the spec's own Scenario 1–3 market (two bets of
100, fee 0, option 0 wins) the winners receive 100 in total, while losing
plus winning stakes sum to 200 — the total pool is **not** fully
redistributed, because each payout uses the odds locked at placement, not
the final pool composition. -/
theorem settle_not_conserving :
    payoutSumWinners 0 0 exSettled.bets = 100 ∧
    amountSumLosers 0 0 exSettled.bets + amountSumWinners 0 0 exSettled.bets = 200 ∧
    payoutSumWinners 0 0 exSettled.bets ≠
      amountSumLosers 0 0 exSettled.bets + amountSumWinners 0 0 exSettled.bets := by
  decide

/-- A settlement pass with `feeRate = 0` over bets that all sit on the
winning option at odds exactly `scale` redistributes stakes one for one. -/
theorem settleBets_conserves (marketId w : Nat) :
    ∀ (bs : List Bet) (led : Nat → LedgerAccount),
      (∀ b ∈ bs, b.marketId = marketId →
        (b.optionId = w ∧ b.settled = false ∧ b.odds = scale)) →
      payoutSumWinners w marketId
          (settleBets marketId (SettleMode.resolvedWith w) 0 bs led).1 =
        amountSumLosers w marketId
            (settleBets marketId (SettleMode.resolvedWith w) 0 bs led).1 +
          amountSumWinners w marketId
            (settleBets marketId (SettleMode.resolvedWith w) 0 bs led).1 := by
  intro bs
  induction bs with
  | nil =>
    intro led _
    simp [settleBets, payoutSumWinners, amountSumLosers, amountSumWinners, betsOn]
  | cons hd tl ih =>
    intro led hall
    have htl : ∀ b ∈ tl, b.marketId = marketId →
        (b.optionId = w ∧ b.settled = false ∧ b.odds = scale) :=
      fun b hb => hall b (List.mem_cons_of_mem hd hb)
    by_cases hmid : hd.marketId = marketId
    · obtain ⟨hopt, hset, hodds⟩ := hall hd (List.mem_cons_self hd tl) hmid
      have hgross : hd.amount * scale / scale = hd.amount :=
        Nat.mul_div_cancel hd.amount (by decide)
      have hcredit : betCredit (SettleMode.resolvedWith w) 0 hd = hd.amount := by
        simp [betCredit, hopt, hodds, hgross]
      have hc : hd.marketId = marketId ∧ hd.settled = false := ⟨hmid, hset⟩
      have hrec := ih (release led hd.owner hd.amount
        (betCredit (SettleMode.resolvedWith w) 0 hd)) htl
      simp only [settleBets, if_pos hc]
      simp [payoutSumWinners, amountSumLosers, amountSumWinners, betsOn,
        List.filter_cons, hmid, hopt, hcredit] at hrec ⊢
      omega
    · have hc : ¬ (hd.marketId = marketId ∧ hd.settled = false) :=
        fun hand => hmid hand.1
      have hrec := ih led htl
      simp only [settleBets, if_neg hc]
      simp [payoutSumWinners, amountSumLosers, amountSumWinners, betsOn,
        List.filter_cons, hmid] at hrec ⊢
      exact hrec

/-- C3 (amended): with placement-locked odds, full redistribution holds
exactly in the degenerate situation the quoted odds make consistent: when
only the winning option is funded, the Odds Engine quotes exactly `scale`
(1.0×), and a `feeRate = 0` settlement over bets that all sit on the
winning option at odds `scale` pays out, over winning bets, precisely the
sum of losing stakes (zero) plus winning stakes. -/
theorem settle_conservation_allOnWinner :
    (∀ (pools : List Nat) (w a : Nat), pools.sum = pools.getD w 0 → 0 < a →
      quoteOdds pools w a = scale) ∧
    (∀ (marketId w : Nat) (s : State),
      (∀ b ∈ s.bets, b.marketId = marketId →
        (b.optionId = w ∧ b.settled = false ∧ b.odds = scale)) →
      payoutSumWinners w marketId
          (settlePass marketId (SettleMode.resolvedWith w) 0 s).bets =
        amountSumLosers w marketId
            (settlePass marketId (SettleMode.resolvedWith w) 0 s).bets +
          amountSumWinners w marketId
            (settlePass marketId (SettleMode.resolvedWith w) 0 s).bets) := by
  constructor
  · intro pools w a hsum ha
    have hpos : 0 < pools.getD w 0 + a := Nat.lt_of_lt_of_le ha (Nat.le_add_left a _)
    unfold quoteOdds
    rw [hsum]
    exact Nat.mul_div_cancel_left scale hpos
  · intro marketId w s hall
    simp only [settlePass]
    exact settleBets_conserves marketId w s.bets s.ledger hall

/-- A registry holding only bets on option 0 of market 0 at odds 1000. -/
def exAllOnW : State :=
  ⟨fun _ => none,
   [⟨0, 1, 0, 0, 100, 1000, 5, false, none⟩, ⟨1, 2, 0, 0, 50, 1000, 6, false, none⟩],
   fun _ => ⟨0, 150⟩, 2⟩

/-- C3 (amended) witness: settling the all-on-winner registry above with
fee 0 pays 150 over winners against 0 + 150 in stakes. -/
theorem settle_conservation_allOnWinner_witness :
    payoutSumWinners 0 0 (settlePass 0 (SettleMode.resolvedWith 0) 0 exAllOnW).bets =
      amountSumLosers 0 0 (settlePass 0 (SettleMode.resolvedWith 0) 0 exAllOnW).bets +
        amountSumWinners 0 0 (settlePass 0 (SettleMode.resolvedWith 0) 0 exAllOnW).bets :=
  settle_conservation_allOnWinner.2 0 0 exAllOnW (by decide)

end Parimutuel

namespace Checko

/-!
Embedding of `getCheCkoBalance` (`src/lib/checko.ts`) and the balance part
of `updateWalletState` (`src/contexts/WalletContext.tsx`). String amounts
are represented by their numeric denotation as rationals (the code's
`parseFloat` / `toString` round-trip), since the claims are about the
numeric values, not the formatting.
-/

/-- The `CheCkoBalance` record of `lib/checko.ts`
(`{ available, locked }`), amounts as rationals. -/
structure CheCkoBalance where
  available : ℚ
  locked : ℚ
deriving DecidableEq, Repr

/-- `weiToTokens` of `lib/checko.ts`: wei (10^18 per token) to the
displayed token amount — whole tokens by integer division, plus the
fractional part truncated to 4 decimal digits. -/
def weiToTokens (wei : Nat) : ℚ :=
  let divisor : Nat := 10 ^ 18
  let whole := wei / divisor
  let fractional := wei % divisor * 10000 / divisor
  (whole : ℚ) + (fractional : ℚ) / 10000

/-- A non-null value one of the balance RPC methods can return:
an object (`{ available?, balance? }`), a `0x…` hex string carrying a wei
amount, or a plain number/string whose `parseFloat` is `num` (`none`
models `NaN`). -/
inductive RpcBalanceValue where
  | objVal (available : Option ℚ) (balance : Option ℚ)
  | hexVal (wei : Nat)
  | plainVal (num : Option ℚ)
deriving DecidableEq, Repr

/-- The outcome of one balance RPC attempt: the request threw, returned
null/undefined, or returned a value. -/
inductive RpcAttempt where
  | fail
  | nullResult
  | value (v : RpcBalanceValue)
deriving DecidableEq, Repr

/-- How `getCheCkoBalance` turns one returned value into a balance:
object → `available || balance || '0'` with `locked: '0'`; hex string →
`weiToTokens` with `locked: '0'`; plain value → its parsed number with
`locked: '0'`, or fall through (`none`) when the parse is `NaN`. -/
def interpretValue : RpcBalanceValue → Option CheCkoBalance
  | .objVal avail bal =>
    some ⟨(avail.getD (bal.getD 0)), 0⟩
  | .hexVal wei => some ⟨weiToTokens wei, 0⟩
  | .plainVal num =>
    match num with
    | some q => some ⟨q, 0⟩
    | none => none

/-- The `for (const { method, params } of methods)` loop of
`getCheCkoBalance`: first attempt that yields a usable value wins; thrown
errors, null results and `NaN` parses fall through to the next method. -/
def tryAttempts : List RpcAttempt → Option CheCkoBalance
  | [] => none
  | .fail :: rest => tryAttempts rest
  | .nullResult :: rest => tryAttempts rest
  | .value v :: rest =>
    match interpretValue v with
    | some b => some b
    | none => tryAttempts rest

/-- `getCheCkoBalance` of `lib/checko.ts`: `none` when no provider is
injected; otherwise the first usable RPC result, else the balance found on
the first `eth_accounts` record (`fallbackBalance`), else the hard-coded
`{ available: '0', locked: '0' }`. -/
def getCheCkoBalance (hasProvider : Bool) (attempts : List RpcAttempt)
    (fallbackBalance : Option ℚ) : Option CheCkoBalance :=
  if hasProvider = false then none
  else
    match tryAttempts attempts with
    | some b => some b
    | none =>
      match fallbackBalance with
      | some q => some ⟨q, 0⟩
      | none => some ⟨0, 0⟩

/-- The `UserBalance` shape of the wallet state
(`{ available, locked, total }`). -/
structure UserBalance where
  available : ℚ
  locked : ℚ
  total : ℚ
deriving DecidableEq, Repr

/-- The balance computation of `updateWalletState`
(`contexts/WalletContext.tsx`): parse `available` and `locked` from the
fetched balance (0 when absent) and set `total: available + locked`. -/
def walletBalanceOf (balanceData : Option CheCkoBalance) : UserBalance :=
  let available := (balanceData.map (fun b => b.available)).getD 0
  let locked := (balanceData.map (fun b => b.locked)).getD 0
  ⟨available, locked, available + locked⟩

/-- Each single interpreted RPC value carries `locked = 0`. -/
theorem interpretValue_locked (v : RpcBalanceValue) (b : CheCkoBalance)
    (h : interpretValue v = some b) : b.locked = 0 := by
  cases v with
  | objVal avail bal =>
    simp only [interpretValue, Option.some.injEq] at h
    rw [← h]
  | hexVal wei =>
    simp only [interpretValue, Option.some.injEq] at h
    rw [← h]
  | plainVal num =>
    cases num with
    | some q =>
      simp only [interpretValue, Option.some.injEq] at h
      rw [← h]
    | none => simp [interpretValue] at h

/-- Every balance produced by the RPC-method loop carries `locked = 0`. -/
theorem tryAttempts_locked :
    ∀ (attempts : List RpcAttempt) (b : CheCkoBalance),
      tryAttempts attempts = some b → b.locked = 0 := by
  intro attempts
  induction attempts with
  | nil =>
    intro b h
    simp [tryAttempts] at h
  | cons hd tl ih =>
    intro b h
    cases hd with
    | fail => exact ih b (by simpa [tryAttempts] using h)
    | nullResult => exact ih b (by simpa [tryAttempts] using h)
    | value v =>
      simp only [tryAttempts] at h
      cases hv : interpretValue v with
      | none =>
        rw [hv] at h
        exact ih b h
      | some b' =>
        rw [hv] at h
        obtain rfl := Option.some.inj h
        exact interpretValue_locked v b' hv

/-- C8: every balance `getCheCkoBalance` returns carries `locked = 0` (the
field is hard-coded `'0'` on every return path), the wallet state computed
by `updateWalletState` always satisfies `total = available + locked`, and
consequently — the locked part being 0 — the displayed total equals the
available balance alone, never reflecting stakes reserved by unsettled
bets. -/
theorem checko_locked_always_zero (hasProvider : Bool)
    (attempts : List RpcAttempt) (fallbackBalance : Option ℚ) :
    (∀ b, getCheCkoBalance hasProvider attempts fallbackBalance = some b →
      b.locked = 0 ∧
      (walletBalanceOf (some b)).total =
        (walletBalanceOf (some b)).available + (walletBalanceOf (some b)).locked ∧
      (walletBalanceOf (some b)).total = (walletBalanceOf (some b)).available) ∧
    (∀ bd : Option CheCkoBalance,
      (walletBalanceOf bd).total =
        (walletBalanceOf bd).available + (walletBalanceOf bd).locked) := by
  constructor
  · intro b h
    have hlocked : b.locked = 0 := by
      unfold getCheCkoBalance at h
      cases hasProvider with
      | false => simp at h
      | true =>
        simp only [Bool.true_eq_false, if_false] at h
        cases ht : tryAttempts attempts with
        | some b' =>
          rw [ht] at h
          obtain rfl := Option.some.inj h
          exact tryAttempts_locked attempts b' ht
        | none =>
          rw [ht] at h
          cases fallbackBalance with
          | some q =>
            obtain rfl := Option.some.inj h
            rfl
          | none =>
            obtain rfl := Option.some.inj h
            rfl
    refine ⟨hlocked, rfl, ?_⟩
    simp [walletBalanceOf, hlocked]
  · intro bd
    rfl

/-- C8 witness: a plain numeric response of 25 yields
`{ available: 25, locked: 0 }` and a wallet total equal to the available
balance. -/
theorem checko_locked_always_zero_witness :
    (CheCkoBalance.mk 25 0).locked = 0 ∧
    (walletBalanceOf (some ⟨25, 0⟩)).total =
      (walletBalanceOf (some ⟨25, 0⟩)).available +
        (walletBalanceOf (some ⟨25, 0⟩)).locked ∧
    (walletBalanceOf (some ⟨25, 0⟩)).total =
      (walletBalanceOf (some ⟨25, 0⟩)).available :=
  (checko_locked_always_zero true
    [RpcAttempt.value (RpcBalanceValue.plainVal (some 25))] none).1
    ⟨25, 0⟩ rfl

end Checko

namespace Slip

/-!
Embedding of `handlePlaceBets` from
`src/components/betting/BettingSlip.tsx`. The handler never mutates the
local wallet balance itself — balances change only through submitted
on-chain operations — so the submitted `placeBet` calls are collected in
`ops`, and `ops = []` expresses that the wallet is untouched.
-/

/-- JS `String.prototype.startsWith`, as a prefix test over the character
list. -/
def strStartsWith (s p : String) : Bool :=
  p.data.isPrefixOf s.data

/-- One betting-slip selection (`BetSelection` in
`contexts/BettingContext.tsx`), reduced to the fields `handlePlaceBets`
reads: the selected market's id, the selected option's id and the stake
amount (a JS number, modelled as a rational). -/
structure BetSelection where
  marketId : String
  optionId : String
  amount : ℚ
deriving DecidableEq, Repr

/-- The mock-market test of `handlePlaceBets`: mock ids start with
`"market-"` (markets) or `"opt-"` (options). -/
def isMockSelection (s : BetSelection) : Bool :=
  strStartsWith s.marketId "market-" || strStartsWith s.optionId "opt-"

/-- `totalStake` from `contexts/BettingContext.tsx`:
`selections.reduce((sum, s) => sum + s.amount, 0)`. -/
def totalStake (sels : List BetSelection) : ℚ :=
  (sels.map (fun s => s.amount)).sum

/-- The inputs `handlePlaceBets` reads: wallet connection flag, the
wallet's available balance, and the slip's selections. -/
structure SlipInput where
  connected : Bool
  available : ℚ
  selections : List BetSelection
deriving DecidableEq, Repr

/-- What a `handlePlaceBets` run does: the on-chain `placeBet` operations
it submits (in order) and the selections left on the slip afterwards. -/
structure SlipResult where
  ops : List BetSelection
  selectionsAfter : List BetSelection
deriving DecidableEq, Repr

/-- `handlePlaceBets` of `BettingSlip.tsx`. Early return (no ops, slip
kept) when the wallet is not connected or the total stake exceeds the
available balance; if any selection is a mock market: demo mode — no
on-chain operation for any selection, `clearSelections()`. Otherwise every
selection is submitted (`succeeds` gives each `mutateAsync`'s outcome) and
the slip is cleared only when all of them succeeded. -/
def handlePlaceBets (inp : SlipInput) (succeeds : BetSelection → Bool) :
    SlipResult :=
  if inp.connected = false then ⟨[], inp.selections⟩
  else if inp.available < totalStake inp.selections then ⟨[], inp.selections⟩
  else if inp.selections.any isMockSelection then ⟨[], []⟩
  else
    let successCount := (inp.selections.filter succeeds).length
    ⟨inp.selections,
     if successCount = inp.selections.length then [] else inp.selections⟩

/-- A mock selection (both ids in the mock-data namespaces). -/
def mockSel : BetSelection := ⟨"market-1", "opt-2", 10⟩

/-- A slip holding the mock selection while the wallet is disconnected. -/
def disconnectedSlip : SlipInput := ⟨false, 100, [mockSel]⟩

/-- C9 counterexample: with a mock selection on the slip but the wallet
disconnected, `handlePlaceBets` returns at the connection guard — it
submits nothing, but it does **not** clear the selections, refuting the
claim as stated (which promises clearing whenever a mock selection is
present). -/
theorem handlePlaceBets_mock_no_clear :
    disconnectedSlip.selections.any isMockSelection = true ∧
    (handlePlaceBets disconnectedSlip (fun _ => true)).ops = [] ∧
    (handlePlaceBets disconnectedSlip (fun _ => true)).selectionsAfter ≠ [] := by
  decide

/-- C9 (amended): provided the wallet is connected and the total stake does
not exceed the available balance, the presence of any mock selection (a
market id starting with `"market-"` or an option id starting with
`"opt-"`) makes `handlePlaceBets` submit no on-chain `placeBet` for any
selection — non-mock ones included, so the wallet balance is untouched —
and clear all selections. -/
theorem handlePlaceBets_demo_mode (inp : SlipInput)
    (succeeds : BetSelection → Bool)
    (hconn : inp.connected = true)
    (hfunds : totalStake inp.selections ≤ inp.available)
    (hmock : inp.selections.any isMockSelection = true) :
    (handlePlaceBets inp succeeds).ops = [] ∧
    (handlePlaceBets inp succeeds).selectionsAfter = [] := by
  have hnl : ¬ inp.available < totalStake inp.selections := not_lt.mpr hfunds
  simp [handlePlaceBets, hconn, hnl, hmock]

/-- A slip holding the mock selection, wallet connected, ample balance. -/
def connectedSlip : SlipInput :=
  ⟨true, 100, [mockSel]⟩

/-- C9 witness: on the connected slip above, demo mode submits nothing and
clears the selections. -/
theorem handlePlaceBets_demo_mode_witness :
    (handlePlaceBets connectedSlip (fun _ => true)).ops = [] ∧
    (handlePlaceBets connectedSlip (fun _ => true)).selectionsAfter = [] :=
  handlePlaceBets_demo_mode connectedSlip (fun _ => true) rfl
    (by simp only [connectedSlip, mockSel, totalStake, List.map_cons,
          List.map_nil, List.sum_cons, List.sum_nil, add_zero]
        decide)
    (by decide)

end Slip

namespace EsportsCache

/-!
Embedding of the TTL cache of the esports-data proxy
(`src/supabase/functions/esports-data/index.ts`): `getCachedData`,
`setCacheData`, the `CACHE_TTL` table and the `serve` handler's TTL
selection. The JS `Map` is modelled as an association list in insertion
order (`Map.set` replaces in place, `Map.delete` removes). Time is in
milliseconds; `getCachedData` also returns the cache it leaves behind,
since expiry deletes the entry.
-/

/-- A cache entry (`CacheEntry` in `index.ts`): the cached payload and its
absolute expiry time. -/
structure CacheEntry (α : Type) where
  data : α
  expiresAt : Nat
deriving DecidableEq, Repr

/-- The in-memory cache: key → entry, in insertion order. -/
abbrev Cache (α : Type) := List (String × CacheEntry α)

/-- `Map.get`: the entry stored under the key, if any. -/
def mapGet {α : Type} : Cache α → String → Option (CacheEntry α)
  | [], _ => none
  | (k', v') :: rest, k => if k' = k then some v' else mapGet rest k

/-- `Map.set`: replace in place, or append a new entry. -/
def mapSet {α : Type} : Cache α → String → CacheEntry α → Cache α
  | [], k, v => [(k, v)]
  | (k', v') :: rest, k, v =>
    if k' = k then (k, v) :: rest else (k', v') :: mapSet rest k v

/-- `Map.delete`. -/
def mapDelete {α : Type} (c : Cache α) (k : String) : Cache α :=
  c.filter (fun kv => kv.1 != k)

/-- `getCachedData` of `index.ts`: a missing key yields `null`; an entry
with `Date.now() > expiresAt` is deleted and `null` returned; otherwise
the stored data is served and the cache untouched. -/
def getCachedData {α : Type} (now : Nat) (c : Cache α) (key : String) :
    Option α × Cache α :=
  match mapGet c key with
  | none => (none, c)
  | some entry =>
    if entry.expiresAt < now then (none, mapDelete c key)
    else (some entry.data, c)

/-- `setCacheData` of `index.ts`: store the data with
`expiresAt = Date.now() + ttl`, then, when the cache has grown past 100
entries, sweep out the already-expired ones. -/
def setCacheData {α : Type} (now : Nat) (c : Cache α) (key : String)
    (data : α) (ttl : Nat) : Cache α :=
  if 100 < (mapSet c key ⟨data, now + ttl⟩).length then
    (mapSet c key ⟨data, now + ttl⟩).filter
      (fun kv => ! decide (kv.2.expiresAt < now))
  else mapSet c key ⟨data, now + ttl⟩

/-- The `CACHE_TTL` table of `index.ts` (milliseconds). -/
structure CacheTTLConfig where
  running : Nat
  upcoming : Nat
  past : Nat
  matchDetail : Nat
deriving DecidableEq, Repr

/-- `CACHE_TTL`: 30 s live, 5 min upcoming, 10 min past, 15 s per-match
(the `match` key, named `matchDetail` here since `match` is reserved). -/
def CACHE_TTL : CacheTTLConfig :=
  ⟨30 * 1000, 5 * 60 * 1000, 10 * 60 * 1000, 15 * 1000⟩

/-- The `serve` handler's TTL choice:
`CACHE_TTL[action as keyof typeof CACHE_TTL] || CACHE_TTL.running`. -/
def ttlFor (action : String) : Nat :=
  if action = "running" then CACHE_TTL.running
  else if action = "upcoming" then CACHE_TTL.upcoming
  else if action = "past" then CACHE_TTL.past
  else if action = "match" then CACHE_TTL.matchDetail
  else CACHE_TTL.running

/-- `Map.set` then `Map.get` on the same key finds the new entry. -/
theorem mapGet_mapSet {α : Type} :
    ∀ (c : Cache α) (k : String) (v : CacheEntry α),
      mapGet (mapSet c k v) k = some v := by
  intro c
  induction c with
  | nil =>
    intro k v
    simp [mapSet, mapGet]
  | cons hd tl ih =>
    intro k v
    obtain ⟨k', v'⟩ := hd
    by_cases hk : k' = k
    · simp [mapSet, hk, mapGet]
    · simp [mapSet, hk, mapGet, ih]

/-- Filtering the cache with a predicate the found entry satisfies does
not change what `Map.get` finds for that key. -/
theorem mapGet_filter {α : Type} (p : String × CacheEntry α → Bool) :
    ∀ (c : Cache α) (k : String) (v : CacheEntry α),
      mapGet c k = some v → p (k, v) = true →
      mapGet (c.filter p) k = some v := by
  intro c
  induction c with
  | nil =>
    intro k v h
    simp [mapGet] at h
  | cons hd tl ih =>
    intro k v h hp
    obtain ⟨k', v'⟩ := hd
    by_cases hk : k' = k
    · have hv : v' = v := by
        simpa [mapGet, hk] using h

      subst hk
      subst hv
      simp [List.filter_cons, hp, mapGet]
    · have htl : mapGet tl k = some v := by
        simpa [mapGet, hk] using h
      cases hph : p (k', v') with
      | true =>
        simp only [List.filter_cons, hph, if_true]
        simpa [mapGet, hk] using ih k v htl hp
      | false =>
        simp only [List.filter_cons, hph]
        simpa using ih k v htl hp

/-- After `setCacheData`, the entry under the key is the freshly stored
one — the size-bound sweep never removes it (it is not expired at store
time). -/
theorem mapGet_setCacheData {α : Type} (now : Nat) (c : Cache α)
    (key : String) (data : α) (ttl : Nat) :
    mapGet (setCacheData now c key data ttl) key =
      some ⟨data, now + ttl⟩ := by
  unfold setCacheData
  have hset := mapGet_mapSet c key (⟨data, now + ttl⟩ : CacheEntry α)
  split
  · refine mapGet_filter _ _ key _ hset ?_
    simp
  · exact hset

/-- C10: `getCachedData` serves a stored value only while the current time
has not passed the entry's `expiresAt` (and then leaves the cache alone);
an expired entry is deleted and `null` returned; hence a value stored by
`setCacheData` at time `t` with a given TTL is served at time `now` only
if `now ≤ t + ttl` — a cached response is never older than its TTL — and
the `serve` handler's TTLs are 30 s for `running`, 5 min for `upcoming`,
10 min for `past` and 15 s for `match`. -/
theorem getCachedData_ttl_bound {α : Type} (now : Nat) (c : Cache α)
    (key : String) :
    (∀ (d : α) (c' : Cache α), getCachedData now c key = (some d, c') →
      ∃ e, mapGet c key = some e ∧ now ≤ e.expiresAt ∧ d = e.data ∧ c' = c) ∧
    (∀ e, mapGet c key = some e → e.expiresAt < now →
      getCachedData now c key = (none, mapDelete c key)) ∧
    (∀ (t ttl : Nat) (x d : α) (c₂ : Cache α),
      getCachedData now (setCacheData t c key x ttl) key = (some d, c₂) →
      d = x ∧ now ≤ t + ttl) ∧
    (ttlFor "running" = 30000 ∧ ttlFor "upcoming" = 300000 ∧
      ttlFor "past" = 600000 ∧ ttlFor "match" = 15000) := by
  refine ⟨?_, ?_, ?_, by decide⟩
  · intro d c' h
    unfold getCachedData at h
    split at h
    · exact absurd h (by simp)
    · rename_i e heq
      split at h
      · exact absurd h (by simp)
      · rename_i hexp
        obtain ⟨h1, h2⟩ := Prod.mk.injEq .. ▸ h
        exact ⟨e, heq, Nat.le_of_not_lt hexp,
          (Option.some.inj h1).symm, h2.symm⟩
  · intro e hmg hexp
    unfold getCachedData
    split
    · rename_i heq
      rw [hmg] at heq
      exact absurd heq (by simp)
    · rename_i e' heq
      rw [hmg] at heq
      obtain rfl := Option.some.inj heq
      rw [if_pos hexp]
  · intro t ttl x d c₂ h
    have hmg := mapGet_setCacheData t c key x ttl
    unfold getCachedData at h
    split at h
    · rename_i heq
      rw [hmg] at heq
      exact absurd heq (by simp)
    · rename_i e' heq
      rw [hmg] at heq
      obtain rfl := Option.some.inj heq
      split at h
      · exact absurd h (by simp)
      · rename_i hexp
        obtain ⟨h1, -⟩ := Prod.mk.injEq .. ▸ h
        exact ⟨(Option.some.inj h1).symm, Nat.le_of_not_lt hexp⟩

/-- C10 witness: store 42 under `"k"` at time 0 with a 30 s TTL, read at
time 5 ms — the hit is the stored value, the age is within the TTL, and
the pre-expiry read leaves the cache alone. -/
theorem getCachedData_ttl_bound_witness :
    (∃ e, mapGet (setCacheData 0 ([] : Cache Nat) "k" 42 30000) "k" = some e ∧
      5 ≤ e.expiresAt ∧ 42 = e.data ∧
      setCacheData 0 ([] : Cache Nat) "k" 42 30000 =
        setCacheData 0 ([] : Cache Nat) "k" 42 30000) ∧
    ((42 : Nat) = 42 ∧ 5 ≤ 0 + 30000) :=
  ⟨(getCachedData_ttl_bound 5 (setCacheData 0 ([] : Cache Nat) "k" 42 30000)
      "k").1 42 (setCacheData 0 ([] : Cache Nat) "k" 42 30000) (by decide),
   (getCachedData_ttl_bound 5 ([] : Cache Nat) "k").2.2.1 0 30000 42 42
      (setCacheData 0 ([] : Cache Nat) "k" 42 30000) (by decide)⟩

end EsportsCache

